import Mathlib

/-!
Shallow embedding of the xybor-x/xyconfig configuration library.

The embedding covers the two source layers the claims are about:

* the `Value` layer (`value.go` in two revisions: the early one with the
  bracket-delimited `AsArray`, and the later revision adding `AsDuration`
  and `AsBool`): a dynamically typed payload with a `strict` flag and
  fallible typed accessors;
* the `Config` layer (`config.go`): a process-wide registry of named
  configuration nodes, dotted-key `Set`/`Get` with implicit sub-node
  creation, and single-hook resolution on change.

Go strings are modelled as `List Char`; the Go heap of `*Config` pointers
is modelled as an explicit state (`GState`) mapping allocation ids to node
data, and the global `configMap` as a name-to-id table in the same state.
Machine integers are modelled as unbounded `Int` (no claim exercises
overflow) and `float64` payloads as `Rat` (no claim exercises rounding or
NaN).  Functions that can fault in Go (slice/index out of range, comparison
of uncomparable interface values) return an explicit `panics` result.
-/

namespace Xyconfig

/-! ### Association lists (Go maps, keyed lookup with update-or-append) -/

def alFind {α β : Type} [DecidableEq α] : List (α × β) → α → Option β
  | [], _ => none
  | (k, v) :: t, a => if k = a then some v else alFind t a

def alSet {α β : Type} [DecidableEq α] : List (α × β) → α → β → List (α × β)
  | [], a, b => [(a, b)]
  | (k, v) :: t, a, b => if k = a then (a, b) :: t else (k, v) :: alSet t a b

/-! ### Go string helpers -/

/-- Model of `strings.Cut(key, ".")`: split at the first separator,
returning (before, after, found). -/
def cut : List Char → Char → List Char × List Char × Bool
  | [], _ => ([], [], false)
  | c :: cs, sep =>
    if c = sep then ([], cs, true)
    else
      let r := cut cs sep
      (c :: r.1, r.2.1, r.2.2)

/-- Model of `strings.HasPrefix s p` (arguments: the would-be leading part
first, then the scanned string). -/
def goStartsWith : List Char → List Char → Bool
  | [], _ => true
  | _ :: _, [] => false
  | p :: ps, c :: cs => p = c && goStartsWith ps cs

/-- Drop leading space characters (one side of `strings.Trim(s, " ")`). -/
def trimLeft : List Char → List Char
  | [] => []
  | c :: r => if c = ' ' then trimLeft r else c :: r

/-- Model of `strings.Trim(s, " ")`: strip leading and trailing spaces. -/
def trimSpace (l : List Char) : List Char :=
  ((trimLeft ((trimLeft l).reverse)).reverse)

/-- Model of `strings.Split(s, ",")`: split on every comma; the result is
never empty (splitting the empty string yields one empty field). -/
def splitComma : List Char → List (List Char)
  | [] => [[]]
  | c :: r =>
    if c = ',' then [] :: splitComma r
    else
      match splitComma r with
      | [] => [[c]]
      | h :: t => (c :: h) :: t

/-- Last character of a list with a default (models `t[len(t)-1]` on a
string already known to be non-empty). -/
def lastD : List Char → Char → Char
  | [], d => d
  | [c], _ => c
  | _ :: c :: r, d => lastD (c :: r) d

/-! ### Numeric parsing (`strconv`) -/

def digitVal (c : Char) : Nat := c.toNat - 48

def parseDigitsAux (acc : Nat) : List Char → Option Nat
  | [] => some acc
  | c :: r => if c.isDigit then parseDigitsAux (acc * 10 + digitVal c) r else none

def parseDigits (l : List Char) : Option Nat :=
  match l with
  | [] => none
  | _ => parseDigitsAux 0 l

/-- Numeric value of an all-digit string. -/
def digitsVal (l : List Char) : Nat :=
  l.foldl (fun a c => a * 10 + digitVal c) 0

/-- Model of `strconv.Atoi`: optional sign, then one or more decimal
digits; anything else is an error.  Overflow of the machine `int` is not
modelled (no claim exercises it). -/
def atoi (l : List Char) : Option Int :=
  match l with
  | [] => none
  | c :: r =>
    if c = '+' then (parseDigits r).map Int.ofNat
    else if c = '-' then (parseDigits r).map (fun n => -(n : Int))
    else (parseDigits (c :: r)).map Int.ofNat

/-- Model of `strconv.ParseBool`: exactly the listed literals succeed. -/
def parseBool (l : List Char) : Option Bool :=
  if l = "1".toList ∨ l = "t".toList ∨ l = "T".toList ∨
     l = "TRUE".toList ∨ l = "true".toList ∨ l = "True".toList then some true
  else if l = "0".toList ∨ l = "f".toList ∨ l = "F".toList ∨
     l = "FALSE".toList ∨ l = "false".toList ∨ l = "False".toList then some false
  else none

def parseFloatU (l : List Char) : Option Rat :=
  let ip := l.takeWhile Char.isDigit
  let rest := l.dropWhile Char.isDigit
  match rest with
  | [] => if ip = [] then none else some (digitsVal ip : Rat)
  | c :: fr =>
    if c = '.' then
      if fr.all Char.isDigit ∧ (ip ≠ [] ∨ fr ≠ []) then
        some ((digitsVal ip : Rat) + (digitsVal fr : Rat) / ((10 : Rat) ^ fr.length))
      else none
    else none

/-- Model of `strconv.ParseFloat` restricted to plain decimal forms
(optional sign, digits, optional fraction).  The exponent, hex, and
inf/nan forms accepted by Go are outside the scope of every claim and are
not modelled; no theorem below evaluates this function on such inputs. -/
def parseFloat (l : List Char) : Option Rat :=
  match l with
  | [] => none
  | c :: r =>
    if c = '+' then parseFloatU r
    else if c = '-' then (parseFloatU r).map Neg.neg
    else parseFloatU (c :: r)

/-! ### The dynamic payload (`any`) and `Value` -/

/-- The dynamic payloads storable in a `Value` (`any` in Go).  A stored
`*Config` pointer is represented by the allocation id of the node it
points to. -/
inductive GoVal where
  | vNil : GoVal
  | vInt : Int → GoVal
  | vFloat : Rat → GoVal
  | vBool : Bool → GoVal
  | vStr : List Char → GoVal
  | vDur : Int → GoVal
  | vArr : List GoVal → GoVal
  | vConfig : Nat → GoVal

def GoVal.isArr : GoVal → Bool
  | .vArr _ => true
  | _ => false

/-- Structural equality used by Go `==` on comparable payloads.  The
slice-slice case is intercepted by `goEq` before this is consulted. -/
def gvBeq : GoVal → GoVal → Bool
  | .vNil, .vNil => true
  | .vInt a, .vInt b => decide (a = b)
  | .vFloat a, .vFloat b => decide (a = b)
  | .vBool a, .vBool b => decide (a = b)
  | .vStr a, .vStr b => decide (a = b)
  | .vDur a, .vDur b => decide (a = b)
  | .vConfig a, .vConfig b => decide (a = b)
  | _, _ => false

/-- Go interface comparison `a == b`: comparing two values whose dynamic
type is the uncomparable `[]any` panics at run time (`none`); otherwise it
returns the comparison result. -/
def goEq (a b : GoVal) : Option Bool :=
  match a, b with
  | .vArr _, .vArr _ => none
  | _, _ => some (gvBeq a b)

/-- Model of the guarded comparison `ok && old.value == value` (the
comparison is only reached when `ok` holds). -/
def goCmp (ok : Bool) (a b : GoVal) : Option Bool :=
  if ok then goEq a b else some false

/-- `Value` wraps one payload together with the strict flag (the later
revision also carries a `priority` field, which none of the accessors
below ever reads, so it is omitted). -/
structure Value where
  value : GoVal
  strict : Bool

/-! ### Typed accessors (`value.go`, both revisions) -/

/-- `Value.AsConfig`: succeeds exactly on a stored node reference. -/
def AsConfig (v : Value) : Option Nat :=
  match v.value with
  | .vConfig p => some p
  | _ => none

/-- `Value.AsInt`, later revision: non-strict strings parse via `Atoi`;
a `float64` payload converts whenever truncation loses nothing (with no
strict check); an `int` payload passes through. -/
def AsInt (v : Value) : Option Int :=
  match v.value, v.strict with
  | .vStr t, false => atoi t
  | .vStr _, true => none
  | .vFloat q, _ => if ((goTrunc q : Rat) = q) then some (goTrunc q) else none
  | .vInt i, _ => some i
  | _, _ => none
where
  /-- Go `int(t)` on a float truncates toward zero. -/
  goTrunc (q : Rat) : Int := if 0 ≤ q then ⌊q⌋ else ⌈q⌉

/-- `Value.AsInt`, early revision: only non-strict strings and `int`
payloads succeed (no float case). -/
def AsIntV0 (v : Value) : Option Int :=
  match v.value, v.strict with
  | .vStr t, false => atoi t
  | .vStr _, true => none
  | .vInt i, _ => some i
  | _, _ => none

/-- `Value.AsFloat` (later revision): non-strict strings parse; `int`
widens; `float64` passes through. -/
def AsFloat (v : Value) : Option Rat :=
  match v.value, v.strict with
  | .vStr t, false => parseFloat t
  | .vStr _, true => none
  | .vInt i, _ => some (i : Rat)
  | .vFloat q, _ => some q
  | _, _ => none

/-- `Value.AsBool` (later revision): non-strict strings parse via
`ParseBool`; `bool` passes through; nothing else coerces. -/
def AsBool (v : Value) : Option Bool :=
  match v.value, v.strict with
  | .vStr t, false => parseBool t
  | .vStr _, true => none
  | .vBool b, _ => some b
  | _, _ => none

def goSecond : Int := 1000000000
def goMinute : Int := 60000000000
def goHour : Int := 3600000000000

/-- Faulting computations: a Go function that can panic either returns a
value, reports failure through its boolean result, or panics. -/
inductive GoRes (α : Type) where
  | ret : α → GoRes α
  | fail : GoRes α
  | panics : GoRes α
deriving DecidableEq

/-- `Value.AsDuration` (later revision).  Durations are nanosecond counts.
Note the translation of the Go body: on a string payload it first slices
`t[:n-1]` — which panics when the string is empty — then switches on the
last character; `strconv.Atoi` yields 0 together with its error, which is
the value used when the length-1 guard suppresses the error return.  The
strict flag is never consulted. -/
def AsDuration (v : Value) : GoRes Int :=
  match v.value with
  | .vStr t =>
    if t = [] then .panics
    else
      let pre := t.dropLast
      if (atoi pre).isNone && decide (1 < t.length) then .fail
      else
        let v0 : Int := (atoi pre).getD 0
        let c := lastD t ' '
        if c = 'w' then .ret (v0 * 7 * 24 * goHour)
        else if c = 'd' then .ret (v0 * 24 * goHour)
        else if c = 'h' then .ret (v0 * goHour)
        else if c = 'm' then .ret (v0 * goMinute)
        else if c = 's' then .ret (v0 * goSecond)
        else
          match atoi t with
          | none => .fail
          | some v1 => .ret (v1 * goSecond)
  | .vInt i => .ret (i * goSecond)
  | .vDur d => .ret d
  | _ => .fail

/-- Rendering used by the non-strict fallback of `AsString`
(`fmt.Sprint`).  Only the payload kinds no claim evaluates reach the
generic arm, so their exact Go rendering is summarised by a token. -/
def goSprint : GoVal → List Char
  | .vNil => "<nil>".toList
  | .vBool true => "true".toList
  | .vBool false => "false".toList
  | .vInt i => (toString i).toList
  | _ => "<value>".toList

/-- `Value.AsString`: an actual string payload always succeeds; a
non-string payload renders through `fmt.Sprint` when not strict. -/
def AsString (v : Value) : Option (List Char) :=
  match v.value, v.strict with
  | .vStr s, _ => some s
  | _, false => some (goSprint v.value)
  | _, true => none

/-- `Value.AsArray`, later revision: a non-strict string splits on commas
with space-trimmed, non-strict string elements; a stored `[]any` converts
element-wise with strict elements; everything else fails. -/
def AsArray (v : Value) : Option (List Value) :=
  match v.value, v.strict with
  | .vStr s, false =>
    some ((splitComma (trimSpace s)).map (fun e => ⟨.vStr (trimSpace e), false⟩))
  | .vArr a, _ => some (a.map (fun e => ⟨e, true⟩))
  | _, _ => none

/-- `Value.AsArray`, early revision: after trimming spaces the code reads
`s[0]` and `s[len(s)-1]` with no emptiness guard, so an empty (or
space-only) non-strict string payload panics with an index out of range;
otherwise the string must be bracket-delimited and the interior splits on
commas. -/
def AsArrayV0 (v : Value) : GoRes (List Value) :=
  match v.value, v.strict with
  | .vStr s0, false =>
    let s := trimSpace s0
    match s with
    | [] => .panics
    | c :: cs =>
      if c ≠ '[' ∨ lastD (c :: cs) ' ' ≠ ']' then .fail
      else
        let inner := ((c :: cs).drop 1).dropLast
        .ret ((splitComma inner).map (fun e => ⟨.vStr (trimSpace e), false⟩))
  | .vArr a, _ => .ret (a.map (fun e => ⟨e, true⟩))
  | _, _ => .fail

/-- Fault classes raised by the `Must` accessor family. -/
inductive Fault where
  | configKeyError : Fault
  | castError : Fault
deriving DecidableEq

/-- `Value.MustInt`: unwraps `AsInt`, raising a cast-class fault on
failure. -/
def MustInt (v : Value) : Except Fault Int :=
  match AsInt v with
  | some i => .ok i
  | none => .error .castError

/-! ### The configuration tree (`config.go`, early revision)

A `*Config` is identified by the allocation id under which it lives in the
global state; `configMap` is the name-to-id registry; each node carries its
fully qualified `name`, its `config` entry map, and the patterns of its
`hook` map (the callback bodies themselves are irrelevant to every claim —
a fired hook is recorded as an emitted `FEvent`). -/

structure ConfigData where
  name : List Char
  entries : List (List Char × Value)
  hooks : List (List Char)

structure GState where
  next : Nat
  heap : List (Nat × ConfigData)
  registry : List (List Char × Nat)

def heapGet (s : GState) (p : Nat) : ConfigData :=
  (alFind s.heap p).getD ⟨[], [], []⟩

def heapMem (s : GState) (p : Nat) : Bool :=
  (alFind s.heap p).isSome

def heapSet (s : GState) (p : Nat) (cd : ConfigData) : GState :=
  { s with heap := alSet s.heap p cd }

/-- Go map read `c.config[k]`: the zero `Value` together with a presence
flag when the key is absent. -/
def entGet (es : List (List Char × Value)) (k : List Char) : Value × Bool :=
  match alFind es k with
  | some v => (v, true)
  | none => (⟨.vNil, false⟩, false)

/-- The text `fmt.Sprint(cfg)` produces for a freshly constructed
`*Config`: it renders the (identical) zero-valued fields, so every
empty-name creation prints the same string; only its non-emptiness matters
to any claim. -/
def emptyPrintName : List Char := "&xyconfig-config".toList

/-- `GetConfig(name)`: return the registered node for `name`, or create a
fresh one; an empty requested name is replaced by the printed
representation of the new node before registration. -/
def GetConfig (s : GState) (name : List Char) : GState × Nat :=
  match alFind s.registry name with
  | some p => (s, p)
  | none =>
    let p := s.next
    let rname := if name = [] then emptyPrintName else name
    (⟨p + 1, alSet s.heap p ⟨rname, [], []⟩, alSet s.registry rname p⟩, p)

/-- `Config.Get`, fuelled form (the fuel strictly exceeds the key length
at every use; each recursion step strictly shortens the key). -/
def GetF : Nat → GState → Nat → List Char → Value × Bool
  | 0, _, _, _ => (⟨.vNil, false⟩, false)
  | fuel + 1, s, p, key =>
    match cut key '.' with
    | (before, _, false) => entGet (heapGet s p).entries before
    | (before, after, true) =>
      match AsConfig (entGet (heapGet s p).entries before).1 with
      | some q => GetF fuel s q after
      | none => (⟨.vNil, false⟩, false)

/-- `Config.Get`: split the key at the first dot; recurse through a stored
sub-node reference, otherwise report not found. -/
def Get (s : GState) (p : Nat) (key : List Char) : Value × Bool :=
  GetF (key.length + 1) s p key

/-- `Config.Get` as executed while the calling goroutine holds the write
locks of the nodes in `locked` (the chain of `c.lock.Lock()` at line 162
held across the recursive delegation at line 178): the `RLock` that `Get`
takes on each visited node blocks forever against a write lock held by the
same goroutine, which `none` records.  Re-acquiring one's own read locks
along the chain is unobstructed and needs no tracking. -/
def GetL (locked : List Nat) : Nat → GState → Nat → List Char → Option (Value × Bool)
  | 0, _, _, _ => none
  | fuel + 1, s, p, key =>
    if p ∈ locked then none
    else
      match cut key '.' with
      | (before, _, false) => some (entGet (heapGet s p).entries before)
      | (before, after, true) =>
        match AsConfig (entGet (heapGet s p).entries before).1 with
        | some q => GetL locked fuel s q after
        | none => some ((⟨.vNil, false⟩, false) : Value × Bool)

/-- Match test of the hook loop: `key == k || strings.HasPrefix(key, k+".")`. -/
def matchKey (key k : List Char) : Bool :=
  decide (key = k) || goStartsWith (k ++ ['.']) key

/-- The hook-selection loop of `Config.Set`: keep the matching pattern
strictly longer than the best so far (initially the empty string with no
hook selected).  All patterns matching a fixed key have pairwise distinct
lengths, so the Go map's iteration order is immaterial. -/
def selectHook (hooks : List (List Char)) (key : List Char) : List Char × Bool :=
  hooks.foldl
    (fun acc k =>
      if matchKey key k && decide (acc.1.length < k.length) then (k, true) else acc)
    ([], false)

/-- A fired hook: the owning node, the registered pattern that matched,
and the delivered `Event`. -/
structure FEvent where
  owner : Nat
  pat : List Char
  key : List Char
  oldVal : Value
  newVal : Value

/-- Result of `Config.Set`: the final state, the boolean the call returns,
and the hooks fired during the call (in execution order) — or a panic — or
`stuck`, recording that the call deadlocks and never returns (a lock
acquisition blocked against a lock the goroutine itself holds). -/
inductive SetRes where
  | panics : SetRes
  | stuck : SetRes
  | ok : GState → Bool → List FEvent → SetRes

def SetRes.isOk : SetRes → Bool
  | .panics => false
  | .stuck => false
  | .ok _ _ _ => true

def SetRes.st : SetRes → GState
  | .panics => ⟨0, [], []⟩
  | .stuck => ⟨0, [], []⟩
  | .ok s _ _ => s

def SetRes.fired : SetRes → Bool
  | .panics => false
  | .stuck => false
  | .ok _ f _ => f

def SetRes.evs : SetRes → List FEvent
  | .panics => []
  | .stuck => []
  | .ok _ _ e => e

/-- The hook-resolution tail of `Config.Set` when no descendant fired:
select a hook, emit its event (`Key` is the node's name dot the local
key), and return whether one fired. -/
def fireAt (s : GState) (p : Nat) (key : List Char) (old : Value)
    (value : GoVal) (strict : Bool) (evs : List FEvent) : SetRes :=
  let cd := heapGet s p
  let sel := selectHook cd.hooks key
  if sel.2 then
    .ok s true (evs ++ [⟨p, sel.1, cd.name ++ '.' :: key, old, ⟨value, strict⟩⟩])
  else .ok s false evs

/-- One replacement step of `Config.Set`'s child preparation: store at the
first segment a reference to `GetConfig(c.name + "." + before)` and hand
back that node's id. -/
def replaceChild (s : GState) (p : Nat) (before : List Char) (strict : Bool) :
    GState × Nat :=
  let gc := GetConfig s ((heapGet s p).name ++ '.' :: before)
  let cd3 := heapGet gc.1 p
  (heapSet gc.1 p { cd3 with entries := alSet cd3.entries before ⟨.vConfig gc.2, strict⟩ },
   gc.2)

/-- The child-preparation steps of `Config.Set` on a dotted key: if the
entry at the first segment is absent, store a reference to
`GetConfig(c.name + "." + before)`; if the entry (re-read) still fails
`AsConfig`, replace it the same way; the node finally recursed into is the
stored reference. -/
def ensureChild (s : GState) (p : Nat) (before : List Char) (strict : Bool) :
    GState × Nat :=
  let s1 :=
    if (alFind (heapGet s p).entries before).isSome then s
    else (replaceChild s p before strict).1
  match AsConfig (entGet (heapGet s1 p).entries before).1 with
  | some q => (s1, q)
  | none => replaceChild s1 p before strict

/-- `Config.Set`, fuelled form, threading the set of nodes whose write
lock the goroutine already holds.  Faithfully: the initial `c.Get(key)`
read-locks every node it visits and so deadlocks on a write-locked one
(`stuck`); a comparison of two slice payloads panics; an equal stored
payload is a no-op returning false before any lock is taken; then
`c.lock.Lock()` is acquired (blocking forever on re-entry, though the
preceding `Get` already blocks in that situation) and held across the
whole remainder, including the recursive delegation; a dot-free key stores
directly and resolves hooks; a dotted key ensures the child node and
delegates with this node added to the held set, resolving hooks at this
level only when the child reported no hook — and the child's positive
report itself returns `false` upward. -/
def SetF (locked : List Nat) : Nat → GState → Nat → List Char → GoVal → Bool → SetRes
  | 0, _, _, _, _, _ => .stuck
  | fuel + 1, s, p, key, value, strict =>
    match GetL locked (key.length + 1) s p key with
    | none => .stuck
    | some g =>
      match goCmp g.2 g.1.value value with
      | none => .panics
      | some true => .ok s false []
      | some false =>
        if p ∈ locked then .stuck
        else
          match cut key '.' with
          | (_, _, false) =>
            let cd := heapGet s p
            let s1 := heapSet s p { cd with entries := alSet cd.entries key ⟨value, strict⟩ }
            fireAt s1 p key g.1 value strict []
          | (before, after, true) =>
            let sq := ensureChild s p before strict
            match SetF (p :: locked) fuel sq.1 sq.2 after value strict with
            | .panics => .panics
            | .stuck => .stuck
            | .ok s3 true evs => .ok s3 false evs
            | .ok s3 false evs => fireAt s3 p key g.1 value strict evs

/-- `Config.Set`, entered with no lock held. -/
def Set (s : GState) (p : Nat) (key : List Char) (value : GoVal) (strict : Bool) :
    SetRes :=
  SetF [] (key.length + 1) s p key value strict

/-- `Config.AddHook`: register (or overwrite) the callback at a pattern;
for the pattern set this is insert-if-absent. -/
def AddHook (s : GState) (p : Nat) (pat : List Char) : GState :=
  let cd := heapGet s p
  heapSet s p { cd with hooks := if pat ∈ cd.hooks then cd.hooks else cd.hooks ++ [pat] }

/-- `Config.MustGet`: unwraps `Get`, raising a config-key-class fault when
the key is absent. -/
def MustGet (s : GState) (p : Nat) (key : List Char) : Except Fault Value :=
  let g := Get s p key
  if g.2 then .ok g.1 else .error .configKeyError

/-! ### Allocator soundness

`invP` records nothing beyond what the Go runtime itself guarantees of
every heap the program can present: a live `*Config` is an allocation that
already happened, so every heap id, every registry target, and every
sub-node reference stored in an entry lies strictly below the allocator
cursor (in Go: a fresh allocation is distinct from every live pointer).
It holds of the empty state and is preserved by the whole public API. -/

def entBound (next : Nat) (es : List (List Char × Value)) : Bool :=
  es.all fun kv =>
    match kv.2.value with
    | .vConfig q => decide (q < next)
    | _ => true

def invP (s : GState) : Bool :=
  (s.heap.all fun pr => decide (pr.1 < s.next) && entBound s.next pr.2.entries) &&
  (s.registry.all fun nr => decide (nr.2 < s.next))

/-! ### Concrete scenarios, built through the public API from the empty state -/

/-- A node "root" with the chain root.a, root.a.b materialised by an
initial `Set`, a hook `"c"` on the grandchild node, and a hook `"a.b.c"`
on the root. -/
def hookScHalf : GState × Nat :=
  let a := GetConfig ⟨0, [], []⟩ ("root".toList)
  let b := Set a.1 a.2 ("a.b.c".toList) (.vInt 0) true
  (b.st, a.2)

def hookSc : GState × Nat :=
  let c := GetConfig hookScHalf.1 ("root.a.b".toList)
  (AddHook (AddHook c.1 c.2 ("c".toList)) hookScHalf.2 ("a.b.c".toList), hookScHalf.2)

/-- The `Set` that should fire exactly one hook according to the spec. -/
def hookScRes : SetRes :=
  Set hookSc.1 hookSc.2 ("a.b.c".toList) (.vInt 1) true

/-- A node with only the empty-pattern hook registered. -/
def wildSc : GState × Nat :=
  let a := GetConfig ⟨0, [], []⟩ ("wild".toList)
  (AddHook a.1 a.2 [], a.2)

def wildScRes : SetRes :=
  Set wildSc.1 wildSc.2 ("foo".toList) (.vStr ("bar".toList)) true

/-- A node "x" whose entry "a" stores a reference to "x" itself (a plain
`Set` call with the node's own pointer as payload). -/
def aliasSc : GState × Nat :=
  let a := GetConfig ⟨0, [], []⟩ ("x".toList)
  ((Set a.1 a.2 ("a".toList) (.vConfig a.2) true).st, a.2)

/-- Setting "a.a" through the self-referential entry: the inner write
lands on the node itself and replaces the entry "a". -/
def aliasScRes : SetRes :=
  Set aliasSc.1 aliasSc.2 ("a.a".toList) (.vInt 7) true

/-- A node holding a native slice payload at "k". -/
def arrSc : GState × Nat :=
  let a := GetConfig ⟨0, [], []⟩ ("c4".toList)
  ((Set a.1 a.2 ("k".toList) (.vArr [.vInt 1]) true).st, a.2)

/-- A fresh node for the get-after-set witness. -/
def gasSc : GState × Nat := GetConfig ⟨0, [], []⟩ ("w".toList)

def gasScRes : SetRes := Set gasSc.1 gasSc.2 ("a.b".toList) (.vInt 7) true

/-- A node holding the integer 5 at "k", for the idempotent-set witness. -/
def noopSc : GState × Nat :=
  let a := GetConfig ⟨0, [], []⟩ ("c4w".toList)
  ((Set a.1 a.2 ("k".toList) (.vInt 5) true).st, a.2)

/-! ## Lemmas about the basic structures -/

theorem alFind_alSet_self {α β : Type} [DecidableEq α] (l : List (α × β)) (k : α) (v : β) :
    alFind (alSet l k v) k = some v := by
  induction l with
  | nil => simp [alSet, alFind]
  | cons h t ih =>
    rcases h with ⟨k', v'⟩
    by_cases hk : k' = k
    · subst hk
      simp [alSet, alFind]
    · simp [alSet, alFind, hk, ih]

theorem alFind_alSet_ne {α β : Type} [DecidableEq α] (l : List (α × β)) (k a : α) (v : β)
    (h : a ≠ k) : alFind (alSet l k v) a = alFind l a := by
  have h' : k ≠ a := Ne.symm h
  induction l with
  | nil => simp [alSet, alFind, h']
  | cons hd t ih =>
    rcases hd with ⟨k', v'⟩
    by_cases hk : k' = k
    · subst hk
      simp [alSet, alFind, h']
    · by_cases ha : k' = a
      · subst ha
        simp [alSet, alFind, hk]
      · simp [alSet, alFind, hk, ha, ih]

theorem mem_alSet {α β : Type} [DecidableEq α] (l : List (α × β)) (k : α) (v : β) :
    ∀ pr ∈ alSet l k v, pr = (k, v) ∨ pr ∈ l := by
  induction l with
  | nil => simp [alSet]
  | cons hd t ih =>
    rcases hd with ⟨k', v'⟩
    by_cases hk : k' = k
    · subst hk
      intro pr hpr
      simp only [alSet, if_pos rfl] at hpr
      rcases List.mem_cons.1 hpr with h | h
      · exact Or.inl h
      · exact Or.inr (List.mem_cons_of_mem _ h)
    · intro pr hpr
      simp only [alSet, if_neg hk] at hpr
      rcases List.mem_cons.1 hpr with h | h
      · exact Or.inr (List.mem_cons.2 (Or.inl h))
      · rcases ih pr h with h' | h'
        · exact Or.inl h'
        · exact Or.inr (List.mem_cons_of_mem _ h')

theorem alFind_mem {α β : Type} [DecidableEq α] (l : List (α × β)) (k : α) (v : β)
    (h : alFind l k = some v) : (k, v) ∈ l := by
  induction l with
  | nil => simp [alFind] at h
  | cons hd t ih =>
    rcases hd with ⟨k', v'⟩
    by_cases hk : k' = k
    · subst hk
      simp [alFind] at h
      subst h
      exact List.mem_cons_self _ _
    · simp only [alFind, if_neg hk] at h
      exact List.mem_cons_of_mem _ (ih h)

theorem cut_found_lt (l : List Char) (c : Char) (h : (cut l c).2.2 = true) :
    (cut l c).2.1.length < l.length := by
  induction l with
  | nil => simp [cut] at h
  | cons hd t ih =>
    by_cases hc : hd = c
    · simp [cut, hc]
    · simp only [cut, if_neg hc] at h ⊢
      exact Nat.lt_trans (ih h) (Nat.lt_succ_self _)

theorem cut_not_found (l : List Char) (c : Char) (h : (cut l c).2.2 = false) :
    (cut l c).1 = l ∧ (cut l c).2.1 = [] := by
  induction l with
  | nil => simp [cut]
  | cons hd t ih =>
    by_cases hc : hd = c
    · simp [cut, hc] at h
    · simp only [cut, if_neg hc] at h ⊢
      exact ⟨by rw [(ih h).1], (ih h).2⟩

theorem cut_before_no_sep (l : List Char) (c : Char) :
    ∀ x ∈ (cut l c).1, x ≠ c := by
  induction l with
  | nil => simp [cut]
  | cons hd t ih =>
    by_cases hc : hd = c
    · simp [cut, hc]
    · simp only [cut, if_neg hc]
      intro x hx
      rcases List.mem_cons.1 hx with h | h
      · exact h ▸ hc
      · exact ih x h

theorem cut_of_no_sep (l : List Char) (c : Char) (h : ∀ x ∈ l, x ≠ c) :
    cut l c = (l, [], false) := by
  induction l with
  | nil => simp [cut]
  | cons hd t ih =>
    have hhd : hd ≠ c := h hd (List.mem_cons_self _ _)
    simp only [cut, if_neg hhd, ih (fun x hx => h x (List.mem_cons_of_mem _ hx))]

theorem goCmp_true_eq (a b : GoVal) (h : goCmp true a b = some true) : a = b := by
  cases a <;> cases b <;> simp_all [goCmp, goEq, gvBeq]

theorem goEq_refl (a : GoVal) (h : a.isArr = false) : goEq a a = some true := by
  cases a <;> simp [GoVal.isArr] at h ⊢ <;> simp [goEq, gvBeq]

/-! ## Claim C6 -/

/-- C6 (corrected, counterexample): a strict string payload does satisfy
the duration accessor (`AsDuration` never consults the strict flag), and a
strict float payload with integral value does satisfy the int accessor —
contradicting the claim that strict values admit no cross-type coercion
beyond int-to-float widening. -/
theorem c6_strict_duration_coerces :
    AsDuration ⟨.vStr ("1s".toList), true⟩ = .ret goSecond ∧
    AsInt ⟨.vFloat 3, true⟩ = some 3 := by
  constructor
  · decide
  · rfl

/-- C6 (amended): for strict values the int, float, bool and array
accessors never coerce a string payload, and int widens to float; but the
duration accessor treats any payload identically in strict and non-strict
mode, the later-revision int accessor accepts a float payload exactly when
truncation loses nothing (regardless of strict), while the early-revision
int accessor has no float case at all. -/
theorem c6_strict_no_coercion_amended :
    ∀ (t : List Char) (b : Bool) (i : Int) (q : Rat) (x : GoVal),
    AsInt ⟨.vStr t, true⟩ = none ∧
    AsIntV0 ⟨.vStr t, true⟩ = none ∧
    AsFloat ⟨.vStr t, true⟩ = none ∧
    AsBool ⟨.vStr t, true⟩ = none ∧
    AsArray ⟨.vStr t, true⟩ = none ∧
    AsFloat ⟨.vInt i, b⟩ = some (i : Rat) ∧
    AsDuration ⟨x, b⟩ = AsDuration ⟨x, true⟩ ∧
    AsInt ⟨.vFloat q, b⟩ =
      (if ((AsInt.goTrunc q : Rat) = q) then some (AsInt.goTrunc q) else none) ∧
    AsIntV0 ⟨.vFloat q, b⟩ = none := by
  intro t b i q x
  refine ⟨rfl, rfl, rfl, rfl, rfl, ?_, ?_, ?_, ?_⟩
  · cases b <;> rfl
  · cases x <;> rfl
  · cases b <;> rfl
  · cases b <;> rfl

/-! ## Claim C7 -/

/-- C7 (corrected, counterexample): the otherwise-numeric string "12x"
carries an unrecognized unit suffix, yet the duration accessor reports
failure instead of interpreting 12 as seconds. -/
theorem c7_unknown_suffix_fails :
    AsDuration ⟨.vStr ("12x".toList), false⟩ = .fail := by decide

theorem parseDigitsAux_all_digits (l : List Char) :
    ∀ acc : Nat, l.all Char.isDigit = true →
    parseDigitsAux acc l = some (l.foldl (fun a c => a * 10 + digitVal c) acc) := by
  induction l with
  | nil => intro acc _; rfl
  | cons c cs ih =>
    intro acc h
    rw [List.all_cons, Bool.and_eq_true] at h
    simp only [parseDigitsAux, if_pos h.1, List.foldl_cons]
    exact ih _ h.2

theorem atoi_digits (l : List Char) (hne : l ≠ []) (hd : l.all Char.isDigit = true) :
    atoi l = some ((digitsVal l : Int)) := by
  cases l with
  | nil => exact absurd rfl hne
  | cons c cs =>
    rw [List.all_cons, Bool.and_eq_true] at hd
    have h1 : c ≠ '+' := by intro e; rw [e] at hd; exact absurd hd.1 (by decide)
    have h2 : c ≠ '-' := by intro e; rw [e] at hd; exact absurd hd.1 (by decide)
    have hall : (c :: cs).all Char.isDigit = true := by
      rw [List.all_cons, Bool.and_eq_true]; exact hd
    simp only [atoi, if_neg h1, if_neg h2, parseDigits,
      parseDigitsAux_all_digits _ 0 hall, Option.map_some']
    rfl

theorem all_digits_dropLast (l : List Char) (h : l.all Char.isDigit = true) :
    l.dropLast.all Char.isDigit = true := by
  rw [List.all_eq_true] at h ⊢
  exact fun x hx => h x ((List.dropLast_sublist l).subset hx)

theorem lastD_mem (l : List Char) (d : Char) (h : l ≠ []) : lastD l d ∈ l := by
  induction l with
  | nil => exact absurd rfl h
  | cons c cs ih =>
    cases cs with
    | nil => simp [lastD]
    | cons c2 t => exact List.mem_cons_of_mem _ (ih (by simp))

theorem dropLast_nil_singleton (l : List Char) (hne : l ≠ []) (h : l.dropLast = []) :
    l.length = 1 := by
  cases l with
  | nil => exact absurd rfl hne
  | cons c cs =>
    cases cs with
    | nil => rfl
    | cons c2 t => simp [List.dropLast] at h

/-- C7 (amended): "1d" is 24 hours, "1w" is 7 by 24 hours, a bare integer
5 is 5 seconds, and an all-digit string (no unit suffix) is interpreted as
that many seconds; but an otherwise-numeric string whose final character
is an unrecognized unit letter fails the accessor rather than defaulting
to seconds. -/
theorem c7_duration_units_amended : ∀ b : Bool,
    AsDuration ⟨.vStr ("1d".toList), b⟩ = .ret (24 * goHour) ∧
    AsDuration ⟨.vStr ("1w".toList), b⟩ = .ret (7 * 24 * goHour) ∧
    AsDuration ⟨.vInt 5, b⟩ = .ret (5 * goSecond) ∧
    (∀ t : List Char, t ≠ [] → t.all Char.isDigit = true →
      AsDuration ⟨.vStr t, b⟩ = .ret ((digitsVal t : Int) * goSecond)) ∧
    AsDuration ⟨.vStr ("12x".toList), b⟩ = .fail := by
  intro b
  refine ⟨rfl, rfl, rfl, ?_, rfl⟩
  intro t hne hdig
  have hlast : lastD t ' ' ∈ t := lastD_mem t ' ' hne
  have hldig : (lastD t ' ').isDigit = true := by
    rw [List.all_eq_true] at hdig
    exact hdig _ hlast
  have hw : lastD t ' ' ≠ 'w' := by intro e; rw [e] at hldig; exact absurd hldig (by decide)
  have hdu : lastD t ' ' ≠ 'd' := by intro e; rw [e] at hldig; exact absurd hldig (by decide)
  have hh : lastD t ' ' ≠ 'h' := by intro e; rw [e] at hldig; exact absurd hldig (by decide)
  have hm : lastD t ' ' ≠ 'm' := by intro e; rw [e] at hldig; exact absurd hldig (by decide)
  have hs : lastD t ' ' ≠ 's' := by intro e; rw [e] at hldig; exact absurd hldig (by decide)
  have hat : atoi t = some ((digitsVal t : Int)) := atoi_digits t hne hdig
  have hcond : ((atoi t.dropLast).isNone && decide (1 < t.length)) = false := by
    by_cases hdl : t.dropLast = []
    · have h1 : t.length = 1 := dropLast_nil_singleton t hne hdl
      simp [h1]
    · rw [atoi_digits _ hdl (all_digits_dropLast t hdig)]
      simp
  simp only [AsDuration, if_neg hne, hcond, Bool.false_eq_true, if_false,
    if_neg hw, if_neg hdu, if_neg hh, if_neg hm, if_neg hs, hat]

/-- C7 witness: the theorem applied at strict=false and the all-digit
string "17". -/
theorem c7_duration_units_amended_witness :
    ("17".toList ≠ [] ∧ ("17".toList).all Char.isDigit = true) ∧
    AsDuration ⟨.vStr ("17".toList), false⟩ = .ret ((digitsVal ("17".toList) : Int) * goSecond) :=
  ⟨⟨by decide, by decide⟩,
    (c7_duration_units_amended false).2.2.2.1 ("17".toList) (by decide) (by decide)⟩

/-! ## Claim C8 -/

/-- C8 (confirmed): a non-strict string payload always satisfies the array
accessor by splitting on commas with space-trimmed non-strict string
elements — "1, foo" yields exactly the two elements "1" (castable to int
1) and "foo" (castable to string "foo") — a strict string payload never
satisfies it, and a stored native sequence converts element-wise into
strict values. -/
theorem c8_asarray_split :
    ∀ (s : List Char) (l : List GoVal) (b : Bool),
    AsArray ⟨.vStr s, false⟩ =
      some ((splitComma (trimSpace s)).map (fun e => ⟨.vStr (trimSpace e), false⟩)) ∧
    AsArray ⟨.vStr ("1, foo".toList), false⟩ =
      some [⟨.vStr ("1".toList), false⟩, ⟨.vStr ("foo".toList), false⟩] ∧
    AsInt ⟨.vStr ("1".toList), false⟩ = some 1 ∧
    AsString ⟨.vStr ("foo".toList), false⟩ = some ("foo".toList) ∧
    AsArray ⟨.vStr s, true⟩ = none ∧
    AsArray ⟨.vArr l, b⟩ = some (l.map (fun e => ⟨e, true⟩)) := by
  intro s l b
  refine ⟨rfl, rfl, rfl, rfl, rfl, ?_⟩
  cases b <;> rfl

/-! ## Claim C9 -/

/-- C9 (confirmed): `MustGet` raises the config-key fault exactly when the
key is absent and otherwise returns the stored value; `MustInt` raises the
cast fault exactly when the fallible int accessor fails (for example on a
non-coercible string); the fallible forms `Get` and `AsInt` are total
functions reporting failure through their result, never raising. -/
theorem c9_must_accessors :
    ∀ (s : GState) (p : Nat) (k : List Char),
    (MustGet s p k = .error .configKeyError ↔ (Get s p k).2 = false) ∧
    (∀ v, MustGet s p k = .ok v ↔ Get s p k = (v, true)) ∧
    (∀ w : Value, MustInt w = .error .castError ↔ AsInt w = none) ∧
    (∀ (w : Value) (i : Int), MustInt w = .ok i ↔ AsInt w = some i) ∧
    MustInt ⟨.vStr ("abc".toList), false⟩ = .error .castError := by
  intro s p k
  refine ⟨?_, ?_, ?_, ?_, rfl⟩
  · unfold MustGet
    cases hg : (Get s p k).2 <;> simp [hg]
  · intro v
    unfold MustGet
    cases hg : (Get s p k).2 <;>
      simp [hg, Prod.ext_iff, eq_comm]
  · intro w
    unfold MustInt
    cases hi : AsInt w <;> simp [hi]
  · intro w i
    unfold MustInt
    cases hi : AsInt w <;> simp [hi, eq_comm]

/-! ## Claim C10 -/

/-- C10 (code bug): the early-revision array accessor, applied to a
non-strict empty (or space-only) string payload, evaluates `s[0]` on the
empty trimmed string and panics with an index out of range, instead of
returning the (nil, false) failure that the claim — and the accessor's own
fallible contract — describe. -/
theorem c10_asarray_empty_panics :
    AsArrayV0 ⟨.vStr [], false⟩ = .panics ∧
    AsArrayV0 ⟨.vStr (" ".toList), false⟩ = .panics := ⟨rfl, rfl⟩

/-! ## Claim C1 -/

/-- C1 (code bug): one `Set("a.b.c", 1)` call on the root fires TWO hooks
— the grandchild node's `"c"` hook and then the root's `"a.b.c"` hook —
because a child that fired a hook returns `false` to its own caller, so
the suppression reaches only the immediate parent and the root resolves a
second hook.  This contradicts the claim and `AddHook`'s own documentation
("Only one hook function is executed in a change"). -/
theorem c1_ancestor_hook_also_fires :
    hookScRes.isOk = true ∧ hookScRes.fired = true ∧
    hookScRes.evs.map (fun e => (e.owner, e.pat)) =
      [(2, "c".toList), (0, ("a.b.c").toList)] ∧
    hookScRes.evs.length = 2 := ⟨rfl, rfl, rfl, rfl⟩

/-! ## Claim C2 -/

/-- C2 (code bug): with only the empty pattern registered, setting "foo"
fires no hook at all — the match test `key == k || HasPrefix(key, k+".")`
rejects the empty pattern for every ordinary key, and the selection loop
additionally requires a strictly positive pattern length — although the
repository's own test `TestConfigSetWithHookAny` expects the empty-pattern
hook to fire. -/
theorem c2_empty_pattern_hook_never_fires :
    wildScRes.isOk = true ∧ wildScRes.fired = false ∧ wildScRes.evs = [] :=
  ⟨rfl, rfl, rfl⟩

/-! ## Re-entrant delegation deadlocks -/

/-- Supporting fact: after storing the node itself at "a", the call
`Set("a.a", 7)` never completes — the outer frame holds the node's write
lock across the delegation and the delegated inner `Set` re-enters the
same node, whose `Get` then blocks on the read lock forever; the model's
`stuck` outcome records this deadlock. -/
theorem reentrant_set_deadlocks : aliasScRes = .stuck := rfl

/-! ## Claim C4 -/

/-- C4 (corrected, counterexample): when the stored payload at "k" and the
new payload are both native slices — here the identical `[]any{1}` — the
equality test of `Set` compares two uncomparable interface values and
panics instead of performing the no-op. -/
theorem c4_array_compare_panics :
    (Get arrSc.1 arrSc.2 ("k".toList)).2 = true ∧
    (Get arrSc.1 arrSc.2 ("k".toList)).1.value = .vArr [.vInt 1] ∧
    Set arrSc.1 arrSc.2 ("k".toList) (.vArr [.vInt 1]) true = .panics :=
  ⟨rfl, rfl, rfl⟩

/-! ## Claim C5 -/

/-- C5 (confirmed): two successive `GetConfig` calls with the same
non-empty name return the same node identity; with the empty name — which
is never itself a registry key, since registration always substitutes a
non-empty printed name — every call returns a fresh, distinct node. -/
theorem c5_getconfig_identity : ∀ (s : GState) (name : List Char),
    (name ≠ [] → (GetConfig (GetConfig s name).1 name).2 = (GetConfig s name).2) ∧
    (name = [] → alFind s.registry ([] : List Char) = none →
      (GetConfig (GetConfig s name).1 name).2 ≠ (GetConfig s name).2) := by
  intro s name
  constructor
  · intro hne
    cases hr : alFind s.registry name with
    | some p => simp [GetConfig, hr]
    | none =>
      simp [GetConfig, hr, if_neg hne, alFind_alSet_self]
  · intro he hnone
    subst he
    have hne2 : ([] : List Char) ≠ emptyPrintName := by decide
    have e1 : GetConfig s [] =
        (⟨s.next + 1, alSet s.heap s.next ⟨emptyPrintName, [], []⟩,
          alSet s.registry emptyPrintName s.next⟩, s.next) := by
      simp [GetConfig, hnone]
    have e2 : alFind (alSet s.registry emptyPrintName s.next) ([] : List Char) = none := by
      rw [alFind_alSet_ne _ _ _ _ hne2, hnone]
    rw [e1]
    simp [GetConfig, e2]

/-! ## Allocator-soundness bookkeeping for the get-after-set theorem -/

theorem entBound_elem (n : Nat) (kv : List Char × Value) :
    (match kv.2.value with
     | GoVal.vConfig q => decide (q < n)
     | _ => true) = true ↔
    ∀ q, kv.2.value = .vConfig q → q < n := by
  cases hv : kv.2.value <;> simp [hv]

theorem entBound_iff (n : Nat) (es : List (List Char × Value)) :
    entBound n es = true ↔
    ∀ kv ∈ es, ∀ q, kv.2.value = .vConfig q → q < n := by
  unfold entBound
  rw [List.all_eq_true]
  constructor
  · intro h kv hkv
    exact (entBound_elem n kv).1 (h kv hkv)
  · intro h kv hkv
    exact (entBound_elem n kv).2 (h kv hkv)

theorem entBound_mono {n m : Nat} (h : n ≤ m) {es : List (List Char × Value)}
    (hb : entBound n es = true) : entBound m es = true := by
  rw [entBound_iff] at hb ⊢
  intro kv hkv q hq
  exact lt_of_lt_of_le (hb kv hkv q hq) h

theorem invP_heap {s : GState} (h : invP s = true) {p : Nat} {cd : ConfigData}
    (hm : (p, cd) ∈ s.heap) : p < s.next ∧ entBound s.next cd.entries = true := by
  unfold invP at h
  rw [Bool.and_eq_true, List.all_eq_true, List.all_eq_true] at h
  have := h.1 (p, cd) hm
  rw [Bool.and_eq_true, decide_eq_true_eq] at this
  exact this

theorem invP_reg {s : GState} (h : invP s = true) {n : List Char} {p : Nat}
    (hm : (n, p) ∈ s.registry) : p < s.next := by
  unfold invP at h
  rw [Bool.and_eq_true, List.all_eq_true, List.all_eq_true] at h
  have := h.2 (n, p) hm
  rw [decide_eq_true_eq] at this
  exact this

theorem invP_intro (s : GState)
    (h1 : ∀ pr ∈ s.heap, pr.1 < s.next ∧ entBound s.next pr.2.entries = true)
    (h2 : ∀ nr ∈ s.registry, nr.2 < s.next) :
    invP s = true := by
  unfold invP
  rw [Bool.and_eq_true, List.all_eq_true, List.all_eq_true]
  constructor
  · intro pr hpr
    rw [Bool.and_eq_true, decide_eq_true_eq]
    exact h1 pr hpr
  · intro nr hnr
    rw [decide_eq_true_eq]
    exact h2 nr hnr

theorem heapGet_set_self (s : GState) (p : Nat) (cd : ConfigData) :
    heapGet (heapSet s p cd) p = cd := by
  unfold heapGet heapSet
  simp [alFind_alSet_self]

theorem heapGet_set_ne (s : GState) (p : Nat) (cd : ConfigData) (r : Nat) (h : r ≠ p) :
    heapGet (heapSet s p cd) r = heapGet s r := by
  unfold heapGet heapSet
  simp [alFind_alSet_ne _ _ _ _ h]

theorem heapMem_set_self (s : GState) (p : Nat) (cd : ConfigData) :
    heapMem (heapSet s p cd) p = true := by
  unfold heapMem heapSet
  simp [alFind_alSet_self]

theorem heapMem_set_ne (s : GState) (p : Nat) (cd : ConfigData) (r : Nat) (h : r ≠ p) :
    heapMem (heapSet s p cd) r = heapMem s r := by
  unfold heapMem heapSet
  simp [alFind_alSet_ne _ _ _ _ h]

theorem heapMem_set_of (s : GState) (p : Nat) (cd : ConfigData) (r : Nat)
    (h : heapMem s r = true) : heapMem (heapSet s p cd) r = true := by
  by_cases hr : r = p
  · subst hr; exact heapMem_set_self s r cd
  · rw [heapMem_set_ne s p cd r hr]; exact h

theorem heapGet_not_mem (s : GState) (p : Nat) (h : heapMem s p = false) :
    heapGet s p = ⟨[], [], []⟩ := by
  unfold heapMem at h
  unfold heapGet
  cases hf : alFind s.heap p with
  | none => simp
  | some cd => rw [hf] at h; simp at h

theorem memP_lt_next {s : GState} (hinv : invP s = true) {p : Nat}
    (hm : heapMem s p = true) : p < s.next := by
  unfold heapMem at hm
  cases hf : alFind s.heap p with
  | none => rw [hf] at hm; simp at hm
  | some cd => exact (invP_heap hinv (alFind_mem _ _ _ hf)).1

theorem entBound_get {s : GState} (hinv : invP s = true) (p : Nat) :
    entBound s.next (heapGet s p).entries = true := by
  cases hm : heapMem s p with
  | false => rw [heapGet_not_mem s p hm]; rfl
  | true =>
    unfold heapMem at hm
    cases hf : alFind s.heap p with
    | none => rw [hf] at hm; simp at hm
    | some cd =>
      have hg : heapGet s p = cd := by unfold heapGet; rw [hf]; rfl
      rw [hg]
      exact (invP_heap hinv (alFind_mem _ _ _ hf)).2

theorem mem_of_entry {s : GState} {p : Nat} {k : List Char}
    (h : (alFind (heapGet s p).entries k).isSome = true) : heapMem s p = true := by
  cases hm : heapMem s p with
  | true => rfl
  | false =>
    rw [heapGet_not_mem s p hm] at h
    simp [alFind] at h

theorem AsConfig_some {v : Value} {q : Nat} (h : AsConfig v = some q) :
    v.value = .vConfig q := by
  unfold AsConfig at h
  cases hv : v.value <;> rw [hv] at h <;> simp at h
  rw [h]

theorem entGet_config {es : List (List Char × Value)} {k : List Char} {q : Nat}
    (h : (entGet es k).1.value = .vConfig q) : (entGet es k).2 = true := by
  unfold entGet at h ⊢
  cases hf : alFind es k with
  | none => rw [hf] at h; simp at h
  | some v => rfl

/-! ## Fuel irrelevance and the dotted-read shape of `Get` -/

theorem getF_eq_get : ∀ (n : Nat) (key : List Char), key.length ≤ n →
    ∀ (f : Nat) (s : GState) (p : Nat), key.length < f →
    GetF f s p key = Get s p key := by
  intro n
  induction n with
  | zero =>
    intro key hk f s p hf
    have hkey : key = [] := List.length_eq_zero.1 (Nat.le_zero.1 hk)
    subst hkey
    cases f with
    | zero => exact absurd hf (Nat.not_lt_zero _)
    | succ f' => rfl
  | succ n ih =>
    intro key hk f s p hf
    cases f with
    | zero => exact absurd hf (Nat.not_lt_zero _)
    | succ f' =>
      rcases hcut : cut key '.' with ⟨before, rest⟩
      rcases rest with ⟨after, fnd⟩
      cases fnd with
      | false =>
        show GetF (f' + 1) s p key = GetF (key.length + 1) s p key
        simp only [GetF, hcut]
      | true =>
        have hlt : after.length < key.length := by
          have := cut_found_lt key '.'
          rw [hcut] at this
          exact this rfl
        show GetF (f' + 1) s p key = GetF (key.length + 1) s p key
        simp only [GetF, hcut]
        cases hAC : AsConfig (entGet (heapGet s p).entries before).1 with
        | none => simp [hAC]
        | some q =>
          simp only [hAC]
          rw [ih after (by omega) f' s q (by omega),
            ih after (by omega) key.length s q (by omega)]

theorem get_unfold_found (s : GState) (p : Nat) (key before after : List Char)
    (hcut : cut key '.' = (before, after, true)) :
    Get s p key =
      (match AsConfig (entGet (heapGet s p).entries before).1 with
       | some q => Get s q after
       | none => (⟨.vNil, false⟩, false)) := by
  have hlt : after.length < key.length := by
    have := cut_found_lt key '.'
    rw [hcut] at this
    exact this rfl
  show GetF (key.length + 1) s p key = _
  simp only [GetF, hcut]
  cases hAC : AsConfig (entGet (heapGet s p).entries before).1 with
  | none => simp [hAC]
  | some q =>
    simp only [hAC]
    exact getF_eq_get key.length after (by omega) key.length s q hlt

theorem get_unfold_plain (s : GState) (p : Nat) (key : List Char)
    (h : (cut key '.').2.2 = false) :
    Get s p key = entGet (heapGet s p).entries key := by
  have h1 := (cut_not_found key '.' h).1
  show GetF (key.length + 1) s p key = _
  rcases hcut : cut key '.' with ⟨before, rest⟩
  rcases rest with ⟨after, fnd⟩
  rw [hcut] at h h1
  simp only at h h1
  subst h
  subst h1
  simp only [GetF, hcut]

theorem get_dotted (s : GState) (p : Nat) (key before after : List Char)
    (hcut : cut key '.' = (before, after, true))
    (hfound : (Get s p key).2 = true) :
    ∃ q st, Get s p before = (⟨.vConfig q, st⟩, true) ∧ Get s q after = Get s p key := by
  have hbody := get_unfold_found s p key before after hcut
  cases hAC : AsConfig (entGet (heapGet s p).entries before).1 with
  | none =>
    rw [hbody, hAC] at hfound
    simp at hfound
  | some q =>
    have hval := AsConfig_some hAC
    have hok := entGet_config hval
    have hbefore : cut before '.' = (before, [], false) := by
      apply cut_of_no_sep
      intro x hx
      have := cut_before_no_sep key '.' x
      rw [hcut] at this
      exact this hx
    have hgb : Get s p before = entGet (heapGet s p).entries before := by
      apply get_unfold_plain
      rw [hbefore]
    refine ⟨q, (entGet (heapGet s p).entries before).1.strict, ?_, ?_⟩
    · rcases hE : entGet (heapGet s p).entries before with ⟨⟨vv, vs⟩, ok⟩
      rw [hE] at hval hok
      simp only at hval hok
      rw [hgb, hE, hval, hok]
    · rw [hbody, hAC]

/-! ## The lock-aware read agrees with `Get` whenever it returns -/

theorem getL_not_locked {locked : List Nat} {f : Nat} {s : GState} {p : Nat}
    {key : List Char} {r : Value × Bool} (h : GetL locked f s p key = some r) :
    p ∉ locked := by
  cases f with
  | zero => simp [GetL] at h
  | succ f =>
    by_cases hp : p ∈ locked
    · simp [GetL, hp] at h
    · exact hp

theorem getL_eq_get : ∀ (n : Nat) (key : List Char), key.length ≤ n →
    ∀ (f : Nat) (locked : List Nat) (s : GState) (p : Nat) (r : Value × Bool),
    key.length < f → GetL locked f s p key = some r → Get s p key = r := by
  intro n
  induction n with
  | zero =>
    intro key hk f locked s p r hf h
    have hkey : key = [] := List.length_eq_zero.1 (Nat.le_zero.1 hk)
    subst hkey
    cases f with
    | zero => exact absurd hf (Nat.not_lt_zero _)
    | succ f' =>
      by_cases hp : p ∈ locked
      · simp [GetL, hp] at h
      · simp only [GetL, if_neg hp] at h
        have hnf : (cut ([] : List Char) '.').2.2 = false := rfl
        rw [get_unfold_plain s p [] hnf]
        injection h with h
  | succ n ih =>
    intro key hk f locked s p r hf h
    cases f with
    | zero => exact absurd hf (Nat.not_lt_zero _)
    | succ f' =>
      by_cases hp : p ∈ locked
      · simp [GetL, hp] at h
      · rcases hcut : cut key '.' with ⟨before, rest⟩
        rcases rest with ⟨after, fnd⟩
        cases fnd with
        | false =>
          simp only [GetL, if_neg hp, hcut] at h
          have hnf : (cut key '.').2.2 = false := by rw [hcut]
          have hbk : before = key := by
            have := (cut_not_found key '.' hnf).1
            rw [hcut] at this
            exact this
          subst hbk
          rw [get_unfold_plain s p _ hnf]
          injection h with h
        | true =>
          have hlt : after.length < key.length := by
            have := cut_found_lt key '.'
            rw [hcut] at this
            exact this rfl
          simp only [GetL, if_neg hp, hcut] at h
          rw [get_unfold_found s p key before after hcut]
          cases hAC : AsConfig (entGet (heapGet s p).entries before).1 with
          | some q =>
            rw [hAC] at h
            exact ih after (by omega) f' locked s q r (by omega) h
          | none =>
            rw [hAC] at h
            injection h with h

theorem getL_sound {locked : List Nat} {f : Nat} {s : GState} {p : Nat}
    {key : List Char} {r : Value × Bool} (hf : key.length < f)
    (h : GetL locked f s p key = some r) : Get s p key = r :=
  getL_eq_get key.length key le_rfl f locked s p r hf h

theorem getL_nil : ∀ (n : Nat) (key : List Char), key.length ≤ n →
    ∀ (f : Nat) (s : GState) (p : Nat), key.length < f →
    GetL [] f s p key = some (Get s p key) := by
  intro n
  induction n with
  | zero =>
    intro key hk f s p hf
    have hkey : key = [] := List.length_eq_zero.1 (Nat.le_zero.1 hk)
    subst hkey
    cases f with
    | zero => exact absurd hf (Nat.not_lt_zero _)
    | succ f' =>
      have hnf : (cut ([] : List Char) '.').2.2 = false := rfl
      rw [get_unfold_plain s p [] hnf]
      simp only [GetL, if_neg (List.not_mem_nil p)]
      rfl
  | succ n ih =>
    intro key hk f s p hf
    cases f with
    | zero => exact absurd hf (Nat.not_lt_zero _)
    | succ f' =>
      rcases hcut : cut key '.' with ⟨before, rest⟩
      rcases rest with ⟨after, fnd⟩
      cases fnd with
      | false =>
        have hnf : (cut key '.').2.2 = false := by rw [hcut]
        have hbk : before = key := by
          have := (cut_not_found key '.' hnf).1
          rw [hcut] at this
          exact this
        subst hbk
        rw [get_unfold_plain s p _ hnf]
        simp only [GetL, if_neg (List.not_mem_nil p), hcut]
      | true =>
        have hlt : after.length < key.length := by
          have := cut_found_lt key '.'
          rw [hcut] at this
          exact this rfl
        rw [get_unfold_found s p key before after hcut]
        simp only [GetL, if_neg (List.not_mem_nil p), hcut]
        cases hAC : AsConfig (entGet (heapGet s p).entries before).1 with
        | some q =>
          simp only [hAC]
          exact ih after (by omega) f' s q (by omega)
        | none => simp [hAC]

theorem getL_nil_eq (f : Nat) (s : GState) (p : Nat) (key : List Char)
    (hf : key.length < f) : GetL [] f s p key = some (Get s p key) :=
  getL_nil key.length key le_rfl f s p hf

/-- C4 (amended): if the payload currently stored at the key equals the
new value and is not a native slice, `Set` is a no-op: it returns false,
leaves the state untouched, and fires no hook. -/
theorem c4_identical_set_noop_amended :
    ∀ (s : GState) (p : Nat) (key : List Char) (v : GoVal) (b : Bool),
    (Get s p key).2 = true → (Get s p key).1.value = v → v.isArr = false →
    Set s p key v b = .ok s false [] := by
  intro s p key v b hf hv ha
  show SetF [] (key.length + 1) s p key v b = .ok s false []
  have hgl : GetL [] (key.length + 1) s p key = some (Get s p key) :=
    getL_nil_eq (key.length + 1) s p key (Nat.lt_succ_self _)
  have hc : goCmp (Get s p key).2 (Get s p key).1.value v = some true := by
    rw [hf, hv]
    simp [goCmp, goEq_refl v ha]
  simp only [SetF, hgl]
  rw [hc]

/-- C4 witness: a node storing the integer 5 at "k"; setting "k" to 5
again is the no-op the amended claim describes. -/
theorem c4_identical_set_noop_witness :
    (Get noopSc.1 noopSc.2 ("k".toList)).2 = true ∧
    Set noopSc.1 noopSc.2 ("k".toList) (.vInt 5) true = .ok noopSc.1 false [] :=
  ⟨rfl, c4_identical_set_noop_amended _ _ _ _ _ rfl rfl rfl⟩

/-! ## `GetConfig` preserves allocator soundness and the rest of the heap -/

theorem getConfig_frameP (s : GState) (nm : List Char) {r : Nat}
    (hr : r < s.next) :
    heapGet (GetConfig s nm).1 r = heapGet s r ∧
    heapMem (GetConfig s nm).1 r = heapMem s r := by
  unfold GetConfig
  cases hf : alFind s.registry nm with
  | some p => simp [hf]
  | none =>
    have hrn : r ≠ s.next := Nat.ne_of_lt hr
    simp only [hf]
    constructor
    · unfold heapGet
      simp only [alFind_alSet_ne _ _ _ _ hrn]
    · unfold heapMem
      simp only [alFind_alSet_ne _ _ _ _ hrn]

theorem getConfig_lt {s : GState} (hinv : invP s = true) (nm : List Char) :
    (GetConfig s nm).2 < (GetConfig s nm).1.next := by
  unfold GetConfig
  cases hf : alFind s.registry nm with
  | some p => simp only [hf]; exact invP_reg hinv (alFind_mem _ _ _ hf)
  | none => simp only [hf]; exact Nat.lt_succ_self _

theorem getConfig_nextle (s : GState) (nm : List Char) :
    s.next ≤ (GetConfig s nm).1.next := by
  unfold GetConfig
  cases hf : alFind s.registry nm with
  | some p => simp [hf]
  | none => simp only [hf]; exact Nat.le_succ _

theorem getConfig_invP {s : GState} (hinv : invP s = true) (nm : List Char) :
    invP (GetConfig s nm).1 = true := by
  unfold GetConfig
  cases hf : alFind s.registry nm with
  | some p => simp only [hf]; exact hinv
  | none =>
    simp only [hf]
    apply invP_intro
    · intro pr hpr
      rcases mem_alSet _ _ _ pr hpr with h | h
      · subst h
        exact ⟨Nat.lt_succ_self _, rfl⟩
      · have hold := invP_heap hinv h
        exact ⟨Nat.lt_succ_of_lt hold.1, entBound_mono (Nat.le_succ _) hold.2⟩
    · intro nr hnr
      rcases mem_alSet _ _ _ nr hnr with h | h
      · subst h
        exact Nat.lt_succ_self _
      · exact Nat.lt_succ_of_lt (invP_reg hinv h)

/-! ## A stored in-bounds link preserves allocator soundness -/

theorem inv_set_entry {s : GState} (hinv : invP s = true) {p q : Nat}
    (hp : p < s.next) (hq : q < s.next) (k : List Char) (b : Bool) :
    invP (heapSet s p
      { heapGet s p with entries := alSet (heapGet s p).entries k ⟨.vConfig q, b⟩ }) = true := by
  apply invP_intro
  · intro pr hpr
    rcases mem_alSet _ _ _ pr hpr with h | h
    · subst h
      refine ⟨hp, ?_⟩
      rw [entBound_iff]
      intro kv hkv q' hq'
      rcases mem_alSet _ _ _ kv hkv with h2 | h2
      · subst h2
        simp only at hq'
        cases hq'
        exact hq
      · exact (entBound_iff s.next (heapGet s p).entries).1 (entBound_get hinv p) kv h2 q' hq'
    · have hold := invP_heap hinv h
      exact ⟨hold.1, hold.2⟩
  · intro nr hnr
    exact invP_reg hinv hnr

/-! ## The replacement step and `ensureChild` -/

theorem replaceChild_specP {s : GState} {p : Nat} (hinv : invP s = true)
    (hp : p < s.next) (before : List Char) (strict : Bool) :
    invP (replaceChild s p before strict).1 = true ∧
    heapMem (replaceChild s p before strict).1 p = true ∧
    (replaceChild s p before strict).2 < (replaceChild s p before strict).1.next ∧
    s.next ≤ (replaceChild s p before strict).1.next ∧
    AsConfig (entGet (heapGet (replaceChild s p before strict).1 p).entries before).1 =
      some (replaceChild s p before strict).2 ∧
    (∀ r, r < s.next → r ≠ p →
      heapGet (replaceChild s p before strict).1 r = heapGet s r ∧
      heapMem (replaceChild s p before strict).1 r = heapMem s r) := by
  have hgci := getConfig_invP hinv ((heapGet s p).name ++ '.' :: before)
  have hgcl := getConfig_lt hinv ((heapGet s p).name ++ '.' :: before)
  have hgcn := getConfig_nextle s ((heapGet s p).name ++ '.' :: before)
  set gc := GetConfig s ((heapGet s p).name ++ '.' :: before) with hgc
  have hpn1 : p < gc.1.next := lt_of_lt_of_le hp hgcn
  have hres : replaceChild s p before strict =
      (heapSet gc.1 p
        { heapGet gc.1 p with
          entries := alSet (heapGet gc.1 p).entries before ⟨.vConfig gc.2, strict⟩ }, gc.2) := rfl
  rw [hres]
  simp only
  refine ⟨inv_set_entry hgci hpn1 hgcl before strict, heapMem_set_self _ _ _, hgcl, hgcn,
    ?_, ?_⟩
  · rw [heapGet_set_self]
    simp only
    unfold entGet
    rw [alFind_alSet_self]
    rfl
  · intro r hr hrp
    have hfr := getConfig_frameP s ((heapGet s p).name ++ '.' :: before) hr
    rw [← hgc] at hfr
    constructor
    · rw [heapGet_set_ne _ _ _ _ hrp]
      exact hfr.1
    · rw [heapMem_set_ne _ _ _ _ hrp]
      exact hfr.2

theorem ensureChild_specP {s : GState} {p : Nat} (hinv : invP s = true)
    (hp : p < s.next) (before : List Char) (strict : Bool) :
    invP (ensureChild s p before strict).1 = true ∧
    heapMem (ensureChild s p before strict).1 p = true ∧
    (ensureChild s p before strict).2 < (ensureChild s p before strict).1.next ∧
    s.next ≤ (ensureChild s p before strict).1.next ∧
    AsConfig (entGet (heapGet (ensureChild s p before strict).1 p).entries before).1 =
      some (ensureChild s p before strict).2 ∧
    (∀ r, r < s.next → r ≠ p →
      heapGet (ensureChild s p before strict).1 r = heapGet s r ∧
      heapMem (ensureChild s p before strict).1 r = heapMem s r) := by
  unfold ensureChild
  cases hpre : (alFind (heapGet s p).entries before).isSome with
  | true =>
    simp only [hpre, if_true]
    cases hAC : AsConfig (entGet (heapGet s p).entries before).1 with
    | some q =>
      simp only [hAC]
      have hval := AsConfig_some hAC
      obtain ⟨v0, hv0⟩ : ∃ v0, alFind (heapGet s p).entries before = some v0 := by
        cases hf : alFind (heapGet s p).entries before with
        | none => rw [hf] at hpre; simp at hpre
        | some v0 => exact ⟨v0, rfl⟩
      have hv0val : v0.value = .vConfig q := by
        unfold entGet at hval
        rw [hv0] at hval
        exact hval
      have hmem0 := alFind_mem _ _ _ hv0
      have hpm : heapMem s p = true := mem_of_entry (by rw [hv0]; rfl)
      have hq : q < s.next :=
        (entBound_iff s.next (heapGet s p).entries).1 (entBound_get hinv p)
          (before, v0) hmem0 q hv0val
      exact ⟨hinv, hpm, hq, le_rfl, trivial, fun r hr hrp => ⟨trivial, trivial⟩⟩
    | none =>
      simp only [hAC]
      exact replaceChild_specP hinv hp before strict
  | false =>
    simp only [hpre]
    have hrep := replaceChild_specP hinv hp before strict
    obtain ⟨hinv1, hmem1, hq1, hle1, hAC1, hframe1⟩ := hrep
    simp only [if_false, Bool.false_eq_true]
    rw [hAC1]
    simp only
    exact ⟨hinv1, hmem1, hq1, hle1, hAC1, hframe1⟩

/-! ## A completing `Set` leaves every write-locked node untouched -/

theorem fireAt_st (s : GState) (p : Nat) (key : List Char) (old : Value) (v : GoVal)
    (b : Bool) (evs : List FEvent) : (fireAt s p key old v b evs).st = s := by
  unfold fireAt
  cases h : (selectHook (heapGet s p).hooks key).2 <;> simp [h, SetRes.st]

theorem fireAt_isOk (s : GState) (p : Nat) (key : List Char) (old : Value) (v : GoVal)
    (b : Bool) (evs : List FEvent) : (fireAt s p key old v b evs).isOk = true := by
  unfold fireAt
  cases h : (selectHook (heapGet s p).hooks key).2 <;> simp [h, SetRes.isOk]

theorem goCmp_some_true {ok : Bool} {a b : GoVal} (h : goCmp ok a b = some true) :
    ok = true ∧ a = b := by
  cases ok
  · simp [goCmp] at h
  · exact ⟨rfl, goCmp_true_eq a b h⟩

theorem setF_frame : ∀ (f : Nat) (locked : List Nat) (s : GState) (p : Nat)
    (key : List Char) (v : GoVal) (b : Bool), invP s = true → p < s.next →
    (∀ r ∈ locked, r < s.next) →
    (SetF locked f s p key v b).isOk = true →
    ∀ r ∈ locked,
      heapGet (SetF locked f s p key v b).st r = heapGet s r ∧
      heapMem (SetF locked f s p key v b).st r = heapMem s r := by
  intro f
  induction f with
  | zero =>
    intro locked s p key v b _ _ _ hok
    simp [SetF, SetRes.isOk] at hok
  | succ f ih =>
    intro locked s p key v b hinv hp hlb hok r hr
    cases hgl : GetL locked (key.length + 1) s p key with
    | none =>
      simp only [SetF, hgl] at hok
      simp [SetRes.isOk] at hok
    | some g =>
      have hpl : p ∉ locked := getL_not_locked hgl
      have hrp : r ≠ p := fun e => hpl (e ▸ hr)
      cases hcmp : goCmp g.2 g.1.value v with
      | none =>
        simp only [SetF, hgl, hcmp] at hok
        simp [SetRes.isOk] at hok
      | some eq =>
        cases eq with
        | true =>
          simp only [SetF, hgl, hcmp]
          exact ⟨rfl, rfl⟩
        | false =>
          rcases hcut : cut key '.' with ⟨before, rest⟩
          rcases rest with ⟨after, fnd⟩
          cases fnd with
          | false =>
            simp only [SetF, hgl, hcmp, if_neg hpl, hcut]
            rw [fireAt_st]
            exact ⟨heapGet_set_ne _ _ _ _ hrp, heapMem_set_ne _ _ _ _ hrp⟩
          | true =>
            obtain ⟨hinv1, hmp1, hq1, hle1, hACe, hframe1⟩ :=
              ensureChild_specP hinv hp before b
            simp only [SetF, hgl, hcmp, if_neg hpl, hcut] at hok ⊢
            have hfr := hframe1 r (hlb r hr) hrp
            cases hch : SetF (p :: locked) f (ensureChild s p before b).1
                (ensureChild s p before b).2 after v b with
            | panics =>
              simp only [hch] at hok
              simp [SetRes.isOk] at hok
            | stuck =>
              simp only [hch] at hok
              simp [SetRes.isOk] at hok
            | ok s3 w evs =>
              have hchok : (SetF (p :: locked) f (ensureChild s p before b).1
                  (ensureChild s p before b).2 after v b).isOk = true := by rw [hch]; rfl
              have hlb1 : ∀ r' ∈ p :: locked, r' < (ensureChild s p before b).1.next := by
                intro r' hr'
                rcases List.mem_cons.1 hr' with h' | h'
                · subst h'
                  exact lt_of_lt_of_le hp hle1
                · exact lt_of_lt_of_le (hlb r' h') hle1
              have hrec := ih (p :: locked) (ensureChild s p before b).1
                (ensureChild s p before b).2 after v b hinv1 hq1 hlb1 hchok r
                (List.mem_cons_of_mem _ hr)
              rw [hch] at hrec
              simp only [SetRes.st] at hrec
              cases w with
              | true =>
                simp only [hch]
                simp only [SetRes.st]
                exact ⟨hrec.1.trans hfr.1, hrec.2.trans hfr.2⟩
              | false =>
                simp only [hch]
                rw [fireAt_st]
                exact ⟨hrec.1.trans hfr.1, hrec.2.trans hfr.2⟩

/-! ## The get-after-set theorem -/

theorem setF_get : ∀ (f : Nat) (locked : List Nat) (s : GState) (p : Nat)
    (key : List Char) (v : GoVal) (b : Bool), key.length < f → invP s = true →
    p < s.next → (∀ r ∈ locked, r < s.next) →
    (SetF locked f s p key v b).isOk = true →
    (Get (SetF locked f s p key v b).st p key).2 = true ∧
    (Get (SetF locked f s p key v b).st p key).1.value = v := by
  intro f
  induction f with
  | zero =>
    intro locked s p key v b hf
    exact absurd hf (Nat.not_lt_zero _)
  | succ f ih =>
    intro locked s p key v b hf hinv hp hlb hok
    cases hgl : GetL locked (key.length + 1) s p key with
    | none =>
      simp only [SetF, hgl] at hok
      simp [SetRes.isOk] at hok
    | some g =>
      have hpl : p ∉ locked := getL_not_locked hgl
      have hgeq : Get s p key = g := getL_sound (Nat.lt_succ_self _) hgl
      cases hcmp : goCmp g.2 g.1.value v with
      | none =>
        simp only [SetF, hgl, hcmp] at hok
        simp [SetRes.isOk] at hok
      | some eq =>
        cases eq with
        | true =>
          have h2 := goCmp_some_true hcmp
          simp only [SetF, hgl, hcmp]
          show (Get s p key).2 = true ∧ (Get s p key).1.value = v
          rw [hgeq]
          exact ⟨h2.1, h2.2⟩
        | false =>
          rcases hcut : cut key '.' with ⟨before, rest⟩
          rcases rest with ⟨after, fnd⟩
          cases fnd with
          | false =>
            have hnf : (cut key '.').2.2 = false := by rw [hcut]
            simp only [SetF, hgl, hcmp, if_neg hpl, hcut]
            rw [fireAt_st, get_unfold_plain _ _ _ hnf, heapGet_set_self]
            simp only
            unfold entGet
            rw [alFind_alSet_self]
            exact ⟨rfl, rfl⟩
          | true =>
            obtain ⟨hinv1, hmp1, hq1, hle1, hACe, hframe1⟩ :=
              ensureChild_specP hinv hp before b
            have hlt : after.length < key.length := by
              have := cut_found_lt key '.'
              rw [hcut] at this
              exact this rfl
            simp only [SetF, hgl, hcmp, if_neg hpl, hcut] at hok ⊢
            cases hch : SetF (p :: locked) f (ensureChild s p before b).1
                (ensureChild s p before b).2 after v b with
            | panics =>
              simp only [hch] at hok
              simp [SetRes.isOk] at hok
            | stuck =>
              simp only [hch] at hok
              simp [SetRes.isOk] at hok
            | ok s3 w evs =>
              have hchok : (SetF (p :: locked) f (ensureChild s p before b).1
                  (ensureChild s p before b).2 after v b).isOk = true := by rw [hch]; rfl
              have hlb1 : ∀ r' ∈ p :: locked, r' < (ensureChild s p before b).1.next := by
                intro r' hr'
                rcases List.mem_cons.1 hr' with h' | h'
                · subst h'
                  exact lt_of_lt_of_le hp hle1
                · exact lt_of_lt_of_le (hlb r' h') hle1
              have hchild := ih (p :: locked) (ensureChild s p before b).1
                (ensureChild s p before b).2 after v b (by omega) hinv1 hq1 hlb1 hchok
              rw [hch] at hchild
              simp only [SetRes.st] at hchild
              have hfr := setF_frame f (p :: locked) (ensureChild s p before b).1
                (ensureChild s p before b).2 after v b hinv1 hq1 hlb1 hchok p
                (List.mem_cons_self _ _)
              rw [hch] at hfr
              simp only [SetRes.st] at hfr
              have hG := get_unfold_found s3 p key before after hcut
              cases w with
              | true =>
                simp only [hch]
                simp only [SetRes.st]
                rw [hG, hfr.1, hACe]
                exact hchild
              | false =>
                simp only [hch]
                rw [fireAt_st, hG, hfr.1, hACe]
                exact hchild

/-- C3 (confirmed): if `Set(k, v, strict)` completes — returns at all,
rather than deadlocking on its own per-node write lock, which the model's
`stuck` outcome captures — then `Get(k)` on the same node finds the key
and returns a Value wrapping `v`; for a dotted key the first segment holds
a sub-tree Value through which the remainder resolves to `v`.  The two
hypotheses state facts true of every reachable state: `invP` says only
that the allocator never hands out a pointer at or beyond its cursor, and
`heapMem` that the receiver is a live node. -/
theorem c3_set_then_get :
    ∀ (s : GState) (p : Nat) (key : List Char) (v : GoVal) (strict : Bool),
    invP s = true → heapMem s p = true → (Set s p key v strict).isOk = true →
    (Get (Set s p key v strict).st p key).2 = true ∧
    (Get (Set s p key v strict).st p key).1.value = v ∧
    (∀ before after, cut key '.' = (before, after, true) →
      ∃ q st, Get (Set s p key v strict).st p before = (⟨.vConfig q, st⟩, true) ∧
        (Get (Set s p key v strict).st q after).2 = true ∧
        (Get (Set s p key v strict).st q after).1.value = v) := by
  intro s p key v strict hinv hm hok
  have hp := memP_lt_next hinv hm
  have hlb : ∀ r ∈ ([] : List Nat), r < s.next := by simp
  have h := setF_get (key.length + 1) [] s p key v strict (Nat.lt_succ_self _)
    hinv hp hlb hok
  refine ⟨h.1, h.2, ?_⟩
  intro before after hcut
  obtain ⟨q, st, hq, heq⟩ :=
    get_dotted (Set s p key v strict).st p key before after hcut h.1
  exact ⟨q, st, hq, by rw [heq]; exact h.1, by rw [heq]; exact h.2⟩

/-- C3 witness: from a freshly created node, `Set("a.b", 7, true)` followed
by `Get("a.b")` yields 7, and `Get("a")` yields the sub-node through which
`Get("b")` yields 7. -/
theorem c3_set_then_get_witness :
    invP gasSc.1 = true ∧ heapMem gasSc.1 gasSc.2 = true ∧ gasScRes.isOk = true ∧
    (Get gasScRes.st gasSc.2 ("a.b".toList)).2 = true ∧
    (Get gasScRes.st gasSc.2 ("a.b".toList)).1.value = .vInt 7 ∧
    (∃ q st, Get gasScRes.st gasSc.2 ("a".toList) = (⟨.vConfig q, st⟩, true) ∧
      (Get gasScRes.st q ("b".toList)).2 = true ∧
      (Get gasScRes.st q ("b".toList)).1.value = .vInt 7) := by
  have h := c3_set_then_get gasSc.1 gasSc.2 ("a.b".toList) (.vInt 7) true
    (by decide) (by decide) (by decide)
  exact ⟨by decide, by decide, by decide, h.1, h.2.1, h.2.2 ("a".toList) ("b".toList) rfl⟩

end Xyconfig

namespace Xyconfig

/-- C5 witness: the theorem applied from the empty state at the name "n"
and at the empty name. -/
theorem c5_getconfig_identity_witness :
    (GetConfig (GetConfig ⟨0, [], []⟩ ("n".toList)).1 ("n".toList)).2 =
      (GetConfig ⟨0, [], []⟩ ("n".toList)).2 ∧
    (GetConfig (GetConfig ⟨0, [], []⟩ ([] : List Char)).1 ([] : List Char)).2 ≠
      (GetConfig ⟨0, [], []⟩ ([] : List Char)).2 :=
  ⟨(c5_getconfig_identity _ _).1 (by decide), (c5_getconfig_identity _ _).2 rfl rfl⟩

end Xyconfig
